import Mathlib

/-!
Verification of the page-break indicator plugin (src/main.js).

The break-position model of the plugin is embedded shallowly:

* numbers are modelled as rationals (the JS code only adds, subtracts,
  multiplies, divides, floors and compares, so `ℚ` mirrors it exactly up to
  binary floating-point rounding, which is irrelevant at the pixel scale the
  claims speak about);
* the two `while` loops (`calculateSimpleBreaks` and `createAdditionalBreaks`)
  are embedded as fuel-indexed recursions returning `Option (List ℚ)`:
  `some breaks` means the loop exited normally within the given fuel and
  produced `breaks`, `none` means the fuel was exhausted, which models a
  non-terminating loop once the fuel is universally quantified.  The top
  level functions pass a fuel that is sufficient whenever `pageHeight > 0`;
* the cache logic of `updateAllViews` / `updatePageBreaks` is embedded as a
  state-passing model with an explicit computation counter (the observable
  "computation counter in tests" of the specification).
-/

/-- Page sizes of `PAGE_DIMENSIONS` in src/main.js. -/
inductive PageSize where
  | A4
  | Letter
  | Legal
deriving DecidableEq

/-- `this.settings.orientation`: the dropdown offers portrait and landscape. -/
inductive PageOrientation where
  | portrait
  | landscape
deriving DecidableEq

/-- Font families of `FONT_METRICS` in src/main.js. -/
inductive FontFamily where
  | default
  | serif
  | sansSerif
  | monospace
deriving DecidableEq

/-- Width and height of a paper size, in millimetres. -/
structure PageDims where
  width : ℚ
  height : ℚ

/-- `PAGE_DIMENSIONS` (src/main.js lines 21-25). -/
def PAGE_DIMENSIONS : PageSize → PageDims
  | PageSize.A4 => ⟨210, 297⟩
  | PageSize.Letter => ⟨215.9, 279.4⟩
  | PageSize.Legal => ⟨215.9, 355.6⟩

/-- `FONT_METRICS` (src/main.js lines 27-32). -/
def FONT_METRICS : FontFamily → ℚ
  | FontFamily.default => 1.0
  | FontFamily.serif => 1.02
  | FontFamily.sansSerif => 0.98
  | FontFamily.monospace => 1.05

/-- The fields of `this.settings` read by the break-position model
(src/main.js lines 3-19); the purely visual fields are omitted. -/
structure Settings where
  pageSize : PageSize
  orientation : PageOrientation
  marginTop : ℚ
  marginBottom : ℚ
  fontFamily : FontFamily
  calibrationOffset : ℚ
  minBreakSpacing : ℚ

/-- `getPageHeight` (src/main.js lines 348-363): select the page dimension by
orientation, subtract the vertical margins, convert mm to px at 96 dpi, apply
the font metric and the 0.985 safety factor. -/
def getPageHeight (s : Settings) : ℚ :=
  let dims := PAGE_DIMENSIONS s.pageSize
  let height := if s.orientation = PageOrientation.portrait then dims.height else dims.width
  let height := height - (s.marginTop + s.marginBottom)
  let pixelsPerMm : ℚ := 96 / 25.4
  let heightInPixels := height * pixelsPerMm
  let heightInPixels := heightInPixels * FONT_METRICS s.fontFamily
  heightInPixels * 0.985

/-- The `while` loop of `calculateSimpleBreaks` (src/main.js lines 330-343).
State: `page` is `currentPage`, `lastBreakY` the last accepted offset.  Each
iteration: stop once `currentPage * pageHeight < totalHeight` fails, otherwise
consider the candidate `breakY = currentPage * pageHeight + calibrationOffset`
and accept it when `breakY - lastBreakY >= minBreakSpacing`.  `none` means the
fuel ran out before the loop condition failed. -/
def simpleLoop (totalHeight pageHeight calib minSp : ℚ) :
    ℕ → ℤ → ℚ → Option (List ℚ)
  | 0, _, _ => none
  | fuel + 1, page, lastBreakY =>
    if (page : ℚ) * pageHeight < totalHeight then
      if minSp ≤ (page : ℚ) * pageHeight + calib - lastBreakY then
        Option.map (fun bs => ((page : ℚ) * pageHeight + calib) :: bs)
          (simpleLoop totalHeight pageHeight calib minSp fuel (page + 1)
            ((page : ℚ) * pageHeight + calib))
      else
        simpleLoop totalHeight pageHeight calib minSp fuel (page + 1) lastBreakY
    else
      some []

/-- The `while` loop of `createAdditionalBreaks` (src/main.js lines 176-183):
same loop as `simpleLoop` with bound `newHeight`, but a candidate is accepted
only if additionally `breakY > oldHeight`. -/
def additionalLoop (oldHeight newHeight pageHeight calib minSp : ℚ) :
    ℕ → ℤ → ℚ → Option (List ℚ)
  | 0, _, _ => none
  | fuel + 1, page, lastBreakY =>
    if (page : ℚ) * pageHeight < newHeight then
      if minSp ≤ (page : ℚ) * pageHeight + calib - lastBreakY ∧
          oldHeight < (page : ℚ) * pageHeight + calib then
        Option.map (fun bs => ((page : ℚ) * pageHeight + calib) :: bs)
          (additionalLoop oldHeight newHeight pageHeight calib minSp fuel (page + 1)
            ((page : ℚ) * pageHeight + calib))
      else
        additionalLoop oldHeight newHeight pageHeight calib minSp fuel (page + 1) lastBreakY
    else
      some []

/-- Fuel bound for the loops: for `pageHeight > 0` the loop condition
`page * pageHeight < bound` fails after at most `⌈bound / pageHeight⌉`
iterations from any start page `≥ 0`, so this fuel is sufficient. -/
def breakFuel (bound pageHeight : ℚ) : ℕ :=
  (⌈bound / pageHeight⌉).toNat + 1

/-- `calculateSimpleBreaks` (src/main.js lines 323-346): run the loop from
`currentPage = 1`, `lastBreakY = 0`.  `totalHeight` is the container scroll
height; `pageHeight`, `calib` and `minSp` are `getPageHeight()` and the two
settings fields the method reads. -/
def calculateSimpleBreaks (totalHeight pageHeight calib minSp : ℚ) : Option (List ℚ) :=
  simpleLoop totalHeight pageHeight calib minSp (breakFuel totalHeight pageHeight) 1 0

/-- `createAdditionalBreaks` (src/main.js lines 171-186): run the extension
loop from `currentPage = ⌊lastBreak / pageHeight⌋ + 1`, `lastBreakY = lastBreak`. -/
def createAdditionalBreaks (lastBreak oldHeight newHeight pageHeight calib minSp : ℚ) :
    Option (List ℚ) :=
  additionalLoop oldHeight newHeight pageHeight calib minSp
    (breakFuel newHeight pageHeight) (⌊lastBreak / pageHeight⌋ + 1) lastBreak

/-- `createBreakIndicator` (src/main.js lines 377-434), abstracted to the data
it renders: the indicator element is determined by its `data-position` and
`data-page` attributes. -/
def createBreakIndicator (position : ℚ) (pageNumber : ℕ) : ℚ × ℕ :=
  (position, pageNumber)

/-- `renderPageBreaks` (src/main.js lines 365-375): the break at index `i`
(0-based) is rendered with page number `i + 2`. -/
def renderPageBreaks (breaks : List ℚ) : List (ℚ × ℕ) :=
  (List.enum breaks).map (fun ib => createBreakIndicator ib.2 (ib.1 + 2))

/-- `renderAdditionalBreaks` (src/main.js lines 188-197): the break at index
`i` is rendered with page number `startingPageNumber + i`.  The caller
`extendContainersIfNeeded` (line 164) passes `existingBreaks.length + 2`. -/
def renderAdditionalBreaks (breaks : List ℚ) (startingPageNumber : ℕ) : List (ℚ × ℕ) :=
  (List.enum breaks).map (fun ib => createBreakIndicator ib.2 (startingPageNumber + ib.1))

/-- The cache state of the plugin: `calculatedBreaks` models the
`this.calculatedBreaks` map (container identity → cached break sequence) and
`computations` counts full break computations (the observable instrumentation
the specification's cache property asks for). -/
structure SyncState where
  calculatedBreaks : List (ℕ × List ℚ)
  computations : ℕ

/-- `updatePageBreaks` (src/main.js lines 219-279), restricted to its cache
logic: if the container already has cached breaks, return unchanged (lines
242-246, "Using cached breaks - NOT recalculating"); otherwise compute the
breaks once, store them, and count one full computation. -/
def updatePageBreaks (pageHeight calib minSp : ℚ) (s : SyncState)
    (container : ℕ) (height : ℚ) : SyncState :=
  if (s.calculatedBreaks.lookup container).isSome then
    s
  else
    let breaks := (calculateSimpleBreaks height pageHeight calib minSp).getD []
    { calculatedBreaks := (container, breaks) :: s.calculatedBreaks,
      computations := s.computations + 1 }

/-- `updateAllViews` (src/main.js lines 199-212): ALWAYS clear the cache
(line 204), then run `updatePageBreaks` on every markdown view. -/
def updateAllViews (pageHeight calib minSp : ℚ) (s : SyncState)
    (views : List (ℕ × ℚ)) : SyncState :=
  views.foldl (fun t v => updatePageBreaks pageHeight calib minSp t v.1 v.2)
    { s with calculatedBreaks := [] }

/-! ### Fuel bookkeeping

The loops are fuel-indexed; the lemmas below show that once the fuel is
sufficient (`bound ≤ (page + fuel) * pageHeight`, with `pageHeight > 0`) the
result no longer depends on the fuel, and is `some`. -/

theorem simpleLoop_succ (H ph calib minSp : ℚ) (fuel : ℕ) (page : ℤ) (last : ℚ) :
    simpleLoop H ph calib minSp (fuel + 1) page last =
      if (page : ℚ) * ph < H then
        if minSp ≤ (page : ℚ) * ph + calib - last then
          Option.map (fun bs => ((page : ℚ) * ph + calib) :: bs)
            (simpleLoop H ph calib minSp fuel (page + 1) ((page : ℚ) * ph + calib))
        else simpleLoop H ph calib minSp fuel (page + 1) last
      else some [] := rfl

theorem additionalLoop_succ (oldH newH ph calib minSp : ℚ) (fuel : ℕ) (page : ℤ) (last : ℚ) :
    additionalLoop oldH newH ph calib minSp (fuel + 1) page last =
      if (page : ℚ) * ph < newH then
        if minSp ≤ (page : ℚ) * ph + calib - last ∧ oldH < (page : ℚ) * ph + calib then
          Option.map (fun bs => ((page : ℚ) * ph + calib) :: bs)
            (additionalLoop oldH newH ph calib minSp fuel (page + 1) ((page : ℚ) * ph + calib))
        else additionalLoop oldH newH ph calib minSp fuel (page + 1) last
      else some [] := rfl

theorem simpleLoop_fuel_add (H ph calib minSp : ℚ) (hph : 0 < ph) :
    ∀ (fuel : ℕ) (page : ℤ) (last : ℚ) (m : ℕ),
      H ≤ ((page : ℚ) + (fuel : ℚ)) * ph →
      simpleLoop H ph calib minSp (fuel + m + 1) page last
        = simpleLoop H ph calib minSp (fuel + 1) page last := by
  intro fuel
  induction fuel with
  | zero =>
    intro page last m h
    have hg : ¬ ((page : ℚ) * ph < H) := by
      push_cast at h
      nlinarith
    rw [simpleLoop_succ, if_neg hg, simpleLoop_succ, if_neg hg]
  | succ fuel ih =>
    intro page last m h
    have h1 : H ≤ (((page + 1 : ℤ) : ℚ) + (fuel : ℚ)) * ph := by
      push_cast at h ⊢
      nlinarith
    have e : fuel + 1 + m + 1 = (fuel + m + 1) + 1 := by omega
    rw [e, simpleLoop_succ H ph calib minSp (fuel + m + 1) page last,
      simpleLoop_succ H ph calib minSp (fuel + 1) page last]
    by_cases hg : (page : ℚ) * ph < H
    · rw [if_pos hg, if_pos hg]
      by_cases ha : minSp ≤ (page : ℚ) * ph + calib - last
      · rw [if_pos ha, if_pos ha, ih (page + 1) _ m h1]
      · rw [if_neg ha, if_neg ha, ih (page + 1) last m h1]
    · rw [if_neg hg, if_neg hg]

theorem simpleLoop_congr_fuel (H ph calib minSp : ℚ) (hph : 0 < ph)
    (f₁ f₂ : ℕ) (page : ℤ) (last : ℚ)
    (h1 : H ≤ ((page : ℚ) + (f₁ : ℚ)) * ph)
    (h2 : H ≤ ((page : ℚ) + (f₂ : ℚ)) * ph) :
    simpleLoop H ph calib minSp (f₁ + 1) page last
      = simpleLoop H ph calib minSp (f₂ + 1) page last := by
  rcases le_total f₁ f₂ with hle | hle
  · obtain ⟨m, rfl⟩ := Nat.exists_eq_add_of_le hle
    exact (simpleLoop_fuel_add H ph calib minSp hph f₁ page last m h1).symm
  · obtain ⟨m, rfl⟩ := Nat.exists_eq_add_of_le hle
    exact simpleLoop_fuel_add H ph calib minSp hph f₂ page last m h2

theorem simpleLoop_isSome (H ph calib minSp : ℚ) (hph : 0 < ph) :
    ∀ (fuel : ℕ) (page : ℤ) (last : ℚ),
      H ≤ ((page : ℚ) + (fuel : ℚ)) * ph →
      ∃ l, simpleLoop H ph calib minSp (fuel + 1) page last = some l := by
  intro fuel
  induction fuel with
  | zero =>
    intro page last h
    have hg : ¬ ((page : ℚ) * ph < H) := by
      push_cast at h
      nlinarith
    exact ⟨[], by rw [simpleLoop_succ, if_neg hg]⟩
  | succ fuel ih =>
    intro page last h
    have h1 : H ≤ (((page + 1 : ℤ) : ℚ) + (fuel : ℚ)) * ph := by
      push_cast at h ⊢
      nlinarith
    rw [simpleLoop_succ]
    by_cases hg : (page : ℚ) * ph < H
    · rw [if_pos hg]
      by_cases ha : minSp ≤ (page : ℚ) * ph + calib - last
      · obtain ⟨l, hl⟩ := ih (page + 1) ((page : ℚ) * ph + calib) h1
        rw [if_pos ha, hl]
        exact ⟨_, rfl⟩
      · obtain ⟨l, hl⟩ := ih (page + 1) last h1
        rw [if_neg ha, hl]
        exact ⟨l, rfl⟩
    · rw [if_neg hg]
      exact ⟨[], rfl⟩

theorem additionalLoop_fuel_add (oldH newH ph calib minSp : ℚ) (hph : 0 < ph) :
    ∀ (fuel : ℕ) (page : ℤ) (last : ℚ) (m : ℕ),
      newH ≤ ((page : ℚ) + (fuel : ℚ)) * ph →
      additionalLoop oldH newH ph calib minSp (fuel + m + 1) page last
        = additionalLoop oldH newH ph calib minSp (fuel + 1) page last := by
  intro fuel
  induction fuel with
  | zero =>
    intro page last m h
    have hg : ¬ ((page : ℚ) * ph < newH) := by
      push_cast at h
      nlinarith
    rw [additionalLoop_succ, if_neg hg, additionalLoop_succ, if_neg hg]
  | succ fuel ih =>
    intro page last m h
    have h1 : newH ≤ (((page + 1 : ℤ) : ℚ) + (fuel : ℚ)) * ph := by
      push_cast at h ⊢
      nlinarith
    have e : fuel + 1 + m + 1 = (fuel + m + 1) + 1 := by omega
    rw [e, additionalLoop_succ oldH newH ph calib minSp (fuel + m + 1) page last,
      additionalLoop_succ oldH newH ph calib minSp (fuel + 1) page last]
    by_cases hg : (page : ℚ) * ph < newH
    · rw [if_pos hg, if_pos hg]
      by_cases ha : minSp ≤ (page : ℚ) * ph + calib - last ∧ oldH < (page : ℚ) * ph + calib
      · rw [if_pos ha, if_pos ha, ih (page + 1) _ m h1]
      · rw [if_neg ha, if_neg ha, ih (page + 1) last m h1]
    · rw [if_neg hg, if_neg hg]

theorem additionalLoop_congr_fuel (oldH newH ph calib minSp : ℚ) (hph : 0 < ph)
    (f₁ f₂ : ℕ) (page : ℤ) (last : ℚ)
    (h1 : newH ≤ ((page : ℚ) + (f₁ : ℚ)) * ph)
    (h2 : newH ≤ ((page : ℚ) + (f₂ : ℚ)) * ph) :
    additionalLoop oldH newH ph calib minSp (f₁ + 1) page last
      = additionalLoop oldH newH ph calib minSp (f₂ + 1) page last := by
  rcases le_total f₁ f₂ with hle | hle
  · obtain ⟨m, rfl⟩ := Nat.exists_eq_add_of_le hle
    exact (additionalLoop_fuel_add oldH newH ph calib minSp hph f₁ page last m h1).symm
  · obtain ⟨m, rfl⟩ := Nat.exists_eq_add_of_le hle
    exact additionalLoop_fuel_add oldH newH ph calib minSp hph f₂ page last m h2

/-! ### Fuel-free view of the loops

`sBreaks` and `aBreaks` run the two loops with a canonical fuel that is
sufficient whenever `pageHeight > 0`; the step lemmas below then describe one
loop iteration with no fuel in sight, which makes the equivalence proofs of
the incremental extender manageable. -/

/-- Canonical sufficient fuel for a loop currently at `page`. -/
def sFuel (bound ph : ℚ) (page : ℤ) : ℕ :=
  (⌈bound / ph⌉ - page).toNat + 1

/-- `simpleLoop` at the canonical fuel. -/
def sBreaks (H ph calib minSp : ℚ) (page : ℤ) (last : ℚ) : Option (List ℚ) :=
  simpleLoop H ph calib minSp (sFuel H ph page) page last

/-- `additionalLoop` at the canonical fuel. -/
def aBreaks (oldH newH ph calib minSp : ℚ) (page : ℤ) (last : ℚ) : Option (List ℚ) :=
  additionalLoop oldH newH ph calib minSp (sFuel newH ph page) page last

theorem sFuel_suff (bound ph : ℚ) (hph : 0 < ph) (page : ℤ) :
    bound ≤ ((page : ℚ) + (((⌈bound / ph⌉ - page).toNat : ℕ) : ℚ)) * ph := by
  have h1 : ((⌈bound / ph⌉ - page : ℤ) : ℚ) ≤ (((⌈bound / ph⌉ - page).toNat : ℕ) : ℚ) := by
    exact_mod_cast Int.self_le_toNat _
  have h2 : bound / ph ≤ ((⌈bound / ph⌉ : ℤ) : ℚ) := Int.le_ceil _
  have h3 : bound / ph ≤ (page : ℚ) + (((⌈bound / ph⌉ - page).toNat : ℕ) : ℚ) := by
    push_cast at h1 ⊢
    linarith
  calc bound = (bound / ph) * ph := by field_simp
    _ ≤ _ := mul_le_mul_of_nonneg_right h3 hph.le

theorem toNat_pos_of_guard (bound ph : ℚ) (hph : 0 < ph) (page : ℤ)
    (hg : (page : ℚ) * ph < bound) :
    1 ≤ (⌈bound / ph⌉ - page).toNat := by
  have h1 : (page : ℚ) < bound / ph := (lt_div_iff hph).mpr hg
  have h2 : bound / ph ≤ ((⌈bound / ph⌉ : ℤ) : ℚ) := Int.le_ceil _
  have h3 : page < ⌈bound / ph⌉ := by exact_mod_cast lt_of_lt_of_le h1 h2
  omega

theorem sBreaks_exit (H ph calib minSp : ℚ) (page : ℤ) (last : ℚ)
    (hg : ¬ ((page : ℚ) * ph < H)) :
    sBreaks H ph calib minSp page last = some [] := by
  unfold sBreaks sFuel
  rw [simpleLoop_succ, if_neg hg]

theorem aBreaks_exit (oldH newH ph calib minSp : ℚ) (page : ℤ) (last : ℚ)
    (hg : ¬ ((page : ℚ) * ph < newH)) :
    aBreaks oldH newH ph calib minSp page last = some [] := by
  unfold aBreaks sFuel
  rw [additionalLoop_succ, if_neg hg]

theorem sBreaks_isSome (H ph calib minSp : ℚ) (hph : 0 < ph) (page : ℤ) (last : ℚ) :
    ∃ l, sBreaks H ph calib minSp page last = some l := by
  unfold sBreaks sFuel
  exact simpleLoop_isSome H ph calib minSp hph _ page last (sFuel_suff H ph hph page)

theorem sBreaks_shift (H ph calib minSp : ℚ) (hph : 0 < ph) (page : ℤ) (last : ℚ)
    (hg : (page : ℚ) * ph < H) :
    simpleLoop H ph calib minSp ((⌈H / ph⌉ - page).toNat) (page + 1) last
      = sBreaks H ph calib minSp (page + 1) last := by
  obtain ⟨k, hk⟩ := Nat.exists_eq_add_of_le (toNat_pos_of_guard H ph hph page hg)
  rw [show (⌈H / ph⌉ - page).toNat = k + 1 by omega]
  unfold sBreaks sFuel
  apply simpleLoop_congr_fuel H ph calib minSp hph k _ (page + 1) last
  · have hsuff := sFuel_suff H ph hph page
    have hcast : ((k : ℚ)) = (((⌈H / ph⌉ - page).toNat : ℕ) : ℚ) - 1 := by
      rw [hk]
      push_cast
      ring
    rw [hcast]
    push_cast at hsuff ⊢
    nlinarith
  · exact_mod_cast sFuel_suff H ph hph (page + 1)

theorem aBreaks_shift (oldH newH ph calib minSp : ℚ) (hph : 0 < ph) (page : ℤ) (last : ℚ)
    (hg : (page : ℚ) * ph < newH) :
    additionalLoop oldH newH ph calib minSp ((⌈newH / ph⌉ - page).toNat) (page + 1) last
      = aBreaks oldH newH ph calib minSp (page + 1) last := by
  obtain ⟨k, hk⟩ := Nat.exists_eq_add_of_le (toNat_pos_of_guard newH ph hph page hg)
  rw [show (⌈newH / ph⌉ - page).toNat = k + 1 by omega]
  unfold aBreaks sFuel
  apply additionalLoop_congr_fuel oldH newH ph calib minSp hph k _ (page + 1) last
  · have hsuff := sFuel_suff newH ph hph page
    have hcast : ((k : ℚ)) = (((⌈newH / ph⌉ - page).toNat : ℕ) : ℚ) - 1 := by
      rw [hk]
      push_cast
      ring
    rw [hcast]
    push_cast at hsuff ⊢
    nlinarith
  · exact_mod_cast sFuel_suff newH ph hph (page + 1)

theorem sBreaks_step_accept (H ph calib minSp : ℚ) (hph : 0 < ph) (page : ℤ) (last : ℚ)
    (hg : (page : ℚ) * ph < H) (ha : minSp ≤ (page : ℚ) * ph + calib - last) :
    sBreaks H ph calib minSp page last
      = Option.map (fun bs => ((page : ℚ) * ph + calib) :: bs)
          (sBreaks H ph calib minSp (page + 1) ((page : ℚ) * ph + calib)) := by
  conv_lhs => rw [sBreaks, sFuel, simpleLoop_succ, if_pos hg, if_pos ha]
  rw [sBreaks_shift H ph calib minSp hph page _ hg]

theorem sBreaks_step_reject (H ph calib minSp : ℚ) (hph : 0 < ph) (page : ℤ) (last : ℚ)
    (hg : (page : ℚ) * ph < H) (ha : ¬ (minSp ≤ (page : ℚ) * ph + calib - last)) :
    sBreaks H ph calib minSp page last = sBreaks H ph calib minSp (page + 1) last := by
  conv_lhs => rw [sBreaks, sFuel, simpleLoop_succ, if_pos hg, if_neg ha]
  rw [sBreaks_shift H ph calib minSp hph page last hg]

theorem aBreaks_step_accept (oldH newH ph calib minSp : ℚ) (hph : 0 < ph) (page : ℤ) (last : ℚ)
    (hg : (page : ℚ) * ph < newH)
    (ha : minSp ≤ (page : ℚ) * ph + calib - last ∧ oldH < (page : ℚ) * ph + calib) :
    aBreaks oldH newH ph calib minSp page last
      = Option.map (fun bs => ((page : ℚ) * ph + calib) :: bs)
          (aBreaks oldH newH ph calib minSp (page + 1) ((page : ℚ) * ph + calib)) := by
  conv_lhs => rw [aBreaks, sFuel, additionalLoop_succ, if_pos hg, if_pos ha]
  rw [aBreaks_shift oldH newH ph calib minSp hph page _ hg]

theorem aBreaks_step_reject (oldH newH ph calib minSp : ℚ) (hph : 0 < ph) (page : ℤ) (last : ℚ)
    (hg : (page : ℚ) * ph < newH)
    (ha : ¬ (minSp ≤ (page : ℚ) * ph + calib - last ∧ oldH < (page : ℚ) * ph + calib)) :
    aBreaks oldH newH ph calib minSp page last
      = aBreaks oldH newH ph calib minSp (page + 1) last := by
  conv_lhs => rw [aBreaks, sFuel, additionalLoop_succ, if_pos hg, if_neg ha]
  rw [aBreaks_shift oldH newH ph calib minSp hph page last hg]

theorem calculateSimpleBreaks_eq_sBreaks (H ph calib minSp : ℚ) (hph : 0 < ph) :
    calculateSimpleBreaks H ph calib minSp = sBreaks H ph calib minSp 1 0 := by
  unfold calculateSimpleBreaks breakFuel sBreaks sFuel
  apply simpleLoop_congr_fuel H ph calib minSp hph _ _ 1 0
  · have h1 : ((⌈H / ph⌉ : ℤ) : ℚ) ≤ ((⌈H / ph⌉.toNat : ℕ) : ℚ) := by
      exact_mod_cast Int.self_le_toNat _
    have h2 : H / ph ≤ ((⌈H / ph⌉ : ℤ) : ℚ) := Int.le_ceil _
    have h3 : H / ph ≤ (1 : ℚ) + ((⌈H / ph⌉.toNat : ℕ) : ℚ) := by linarith
    calc H = (H / ph) * ph := by field_simp
      _ ≤ _ := mul_le_mul_of_nonneg_right (by push_cast at h3 ⊢; linarith) hph.le
  · exact_mod_cast sFuel_suff H ph hph 1

theorem createAdditionalBreaks_eq_aBreaks (lastBreak oldH newH ph calib minSp : ℚ)
    (hph : 0 < ph) (hlb : 0 ≤ lastBreak) :
    createAdditionalBreaks lastBreak oldH newH ph calib minSp
      = aBreaks oldH newH ph calib minSp (⌊lastBreak / ph⌋ + 1) lastBreak := by
  unfold createAdditionalBreaks breakFuel aBreaks sFuel
  apply additionalLoop_congr_fuel oldH newH ph calib minSp hph _ _ _ lastBreak
  · have hfl : (0 : ℤ) ≤ ⌊lastBreak / ph⌋ :=
      Int.floor_nonneg.mpr (div_nonneg hlb hph.le)
    have h1 : ((⌈newH / ph⌉ : ℤ) : ℚ) ≤ ((⌈newH / ph⌉.toNat : ℕ) : ℚ) := by
      exact_mod_cast Int.self_le_toNat _
    have h2 : newH / ph ≤ ((⌈newH / ph⌉ : ℤ) : ℚ) := Int.le_ceil _
    have h3 : (0 : ℚ) ≤ ((⌊lastBreak / ph⌋ : ℤ) : ℚ) := by exact_mod_cast hfl
    have h4 : newH / ph ≤ ((⌊lastBreak / ph⌋ + 1 : ℤ) : ℚ) + ((⌈newH / ph⌉.toNat : ℕ) : ℚ) := by
      push_cast at h1 h3 ⊢
      linarith
    calc newH = (newH / ph) * ph := by field_simp
      _ ≤ _ := mul_le_mul_of_nonneg_right h4 hph.le
  · exact_mod_cast sFuel_suff newH ph hph (⌊lastBreak / ph⌋ + 1)

/-! ### Invariants of the generation loops -/

theorem simpleLoop_mem_lb (H ph calib minSp : ℚ) (hph : 0 < ph) :
    ∀ (fuel : ℕ) (page : ℤ) (last : ℚ) (l : List ℚ),
      simpleLoop H ph calib minSp fuel page last = some l →
      ∀ x ∈ l, (page : ℚ) * ph + calib ≤ x := by
  intro fuel
  induction fuel with
  | zero => intro page last l h; exact absurd h (by simp [simpleLoop])
  | succ fuel ih =>
    intro page last l h x hx
    rw [simpleLoop_succ] at h
    by_cases hg : (page : ℚ) * ph < H
    · rw [if_pos hg] at h
      by_cases ha : minSp ≤ (page : ℚ) * ph + calib - last
      · rw [if_pos ha] at h
        obtain ⟨l', hl', rfl⟩ := Option.map_eq_some'.mp h
        rcases List.mem_cons.mp hx with rfl | hx'
        · exact le_refl _
        · have := ih (page + 1) _ l' hl' x hx'
          push_cast at this ⊢
          nlinarith
      · rw [if_neg ha] at h
        have := ih (page + 1) last l h x hx
        push_cast at this ⊢
        nlinarith
    · rw [if_neg hg] at h
      cases h
      cases hx

theorem simpleLoop_head_gap (H ph calib minSp : ℚ) :
    ∀ (fuel : ℕ) (page : ℤ) (last : ℚ) (l : List ℚ) (h₀ : ℚ),
      simpleLoop H ph calib minSp fuel page last = some l →
      l.head? = some h₀ → minSp ≤ h₀ - last := by
  intro fuel
  induction fuel with
  | zero => intro page last l h₀ h; exact absurd h (by simp [simpleLoop])
  | succ fuel ih =>
    intro page last l h₀ h hh
    rw [simpleLoop_succ] at h
    by_cases hg : (page : ℚ) * ph < H
    · rw [if_pos hg] at h
      by_cases ha : minSp ≤ (page : ℚ) * ph + calib - last
      · rw [if_pos ha] at h
        obtain ⟨l', _, rfl⟩ := Option.map_eq_some'.mp h
        rw [List.head?_cons, Option.some_inj] at hh
        exact hh ▸ ha
      · rw [if_neg ha] at h
        exact ih (page + 1) last l h₀ h hh
    · rw [if_neg hg] at h
      cases h
      cases hh

theorem simpleLoop_chain_gap (H ph calib minSp : ℚ) :
    ∀ (fuel : ℕ) (page : ℤ) (last : ℚ) (l : List ℚ),
      simpleLoop H ph calib minSp fuel page last = some l →
      l.Chain' (fun a b => minSp ≤ b - a) := by
  intro fuel
  induction fuel with
  | zero => intro page last l h; exact absurd h (by simp [simpleLoop])
  | succ fuel ih =>
    intro page last l h
    rw [simpleLoop_succ] at h
    by_cases hg : (page : ℚ) * ph < H
    · rw [if_pos hg] at h
      by_cases ha : minSp ≤ (page : ℚ) * ph + calib - last
      · rw [if_pos ha] at h
        obtain ⟨l', hl', rfl⟩ := Option.map_eq_some'.mp h
        rw [List.chain'_cons']
        exact ⟨fun y hy => simpleLoop_head_gap H ph calib minSp fuel (page + 1) _ l' y hl' hy,
          ih (page + 1) _ l' hl'⟩
      · rw [if_neg ha] at h
        exact ih (page + 1) last l h
    · rw [if_neg hg] at h
      cases h
      exact List.chain'_nil

theorem simpleLoop_chain_lt (H ph calib minSp : ℚ) (hph : 0 < ph) :
    ∀ (fuel : ℕ) (page : ℤ) (last : ℚ) (l : List ℚ),
      simpleLoop H ph calib minSp fuel page last = some l →
      l.Chain' (· < ·) := by
  intro fuel
  induction fuel with
  | zero => intro page last l h; exact absurd h (by simp [simpleLoop])
  | succ fuel ih =>
    intro page last l h
    rw [simpleLoop_succ] at h
    by_cases hg : (page : ℚ) * ph < H
    · rw [if_pos hg] at h
      by_cases ha : minSp ≤ (page : ℚ) * ph + calib - last
      · rw [if_pos ha] at h
        obtain ⟨l', hl', rfl⟩ := Option.map_eq_some'.mp h
        rw [List.chain'_cons']
        refine ⟨fun y hy => ?_, ih (page + 1) _ l' hl'⟩
        have hm : y ∈ l' := List.mem_of_mem_head? hy
        have := simpleLoop_mem_lb H ph calib minSp hph fuel (page + 1) _ l' hl' y hm
        push_cast at this ⊢
        nlinarith
      · rw [if_neg ha] at h
        exact ih (page + 1) last l h
    · rw [if_neg hg] at h
      cases h
      exact List.chain'_nil

theorem simpleLoop_mem_ub (H ph calib minSp : ℚ) :
    ∀ (fuel : ℕ) (page : ℤ) (last : ℚ) (l : List ℚ),
      simpleLoop H ph calib minSp fuel page last = some l →
      ∀ x ∈ l, x < H + calib := by
  intro fuel
  induction fuel with
  | zero => intro page last l h; exact absurd h (by simp [simpleLoop])
  | succ fuel ih =>
    intro page last l h x hx
    rw [simpleLoop_succ] at h
    by_cases hg : (page : ℚ) * ph < H
    · rw [if_pos hg] at h
      by_cases ha : minSp ≤ (page : ℚ) * ph + calib - last
      · rw [if_pos ha] at h
        obtain ⟨l', hl', rfl⟩ := Option.map_eq_some'.mp h
        rcases List.mem_cons.mp hx with rfl | hx'
        · linarith
        · exact ih (page + 1) _ l' hl' x hx'
      · rw [if_neg ha] at h
        exact ih (page + 1) last l h x hx
    · rw [if_neg hg] at h
      cases h
      cases hx

theorem additionalLoop_mem_lb (oldH newH ph calib minSp : ℚ) (hph : 0 < ph) :
    ∀ (fuel : ℕ) (page : ℤ) (last : ℚ) (l : List ℚ),
      additionalLoop oldH newH ph calib minSp fuel page last = some l →
      ∀ x ∈ l, (page : ℚ) * ph + calib ≤ x := by
  intro fuel
  induction fuel with
  | zero => intro page last l h; exact absurd h (by simp [additionalLoop])
  | succ fuel ih =>
    intro page last l h x hx
    rw [additionalLoop_succ] at h
    by_cases hg : (page : ℚ) * ph < newH
    · rw [if_pos hg] at h
      by_cases ha : minSp ≤ (page : ℚ) * ph + calib - last ∧ oldH < (page : ℚ) * ph + calib
      · rw [if_pos ha] at h
        obtain ⟨l', hl', rfl⟩ := Option.map_eq_some'.mp h
        rcases List.mem_cons.mp hx with rfl | hx'
        · exact le_refl _
        · have := ih (page + 1) _ l' hl' x hx'
          push_cast at this ⊢
          nlinarith
      · rw [if_neg ha] at h
        have := ih (page + 1) last l h x hx
        push_cast at this ⊢
        nlinarith
    · rw [if_neg hg] at h
      cases h
      cases hx

theorem additionalLoop_head_gap (oldH newH ph calib minSp : ℚ) :
    ∀ (fuel : ℕ) (page : ℤ) (last : ℚ) (l : List ℚ) (h₀ : ℚ),
      additionalLoop oldH newH ph calib minSp fuel page last = some l →
      l.head? = some h₀ → minSp ≤ h₀ - last := by
  intro fuel
  induction fuel with
  | zero => intro page last l h₀ h; exact absurd h (by simp [additionalLoop])
  | succ fuel ih =>
    intro page last l h₀ h hh
    rw [additionalLoop_succ] at h
    by_cases hg : (page : ℚ) * ph < newH
    · rw [if_pos hg] at h
      by_cases ha : minSp ≤ (page : ℚ) * ph + calib - last ∧ oldH < (page : ℚ) * ph + calib
      · rw [if_pos ha] at h
        obtain ⟨l', _, rfl⟩ := Option.map_eq_some'.mp h
        rw [List.head?_cons, Option.some_inj] at hh
        exact hh ▸ ha.1
      · rw [if_neg ha] at h
        exact ih (page + 1) last l h₀ h hh
    · rw [if_neg hg] at h
      cases h
      cases hh

theorem additionalLoop_chain_gap (oldH newH ph calib minSp : ℚ) :
    ∀ (fuel : ℕ) (page : ℤ) (last : ℚ) (l : List ℚ),
      additionalLoop oldH newH ph calib minSp fuel page last = some l →
      l.Chain' (fun a b => minSp ≤ b - a) := by
  intro fuel
  induction fuel with
  | zero => intro page last l h; exact absurd h (by simp [additionalLoop])
  | succ fuel ih =>
    intro page last l h
    rw [additionalLoop_succ] at h
    by_cases hg : (page : ℚ) * ph < newH
    · rw [if_pos hg] at h
      by_cases ha : minSp ≤ (page : ℚ) * ph + calib - last ∧ oldH < (page : ℚ) * ph + calib
      · rw [if_pos ha] at h
        obtain ⟨l', hl', rfl⟩ := Option.map_eq_some'.mp h
        rw [List.chain'_cons']
        exact ⟨fun y hy =>
          additionalLoop_head_gap oldH newH ph calib minSp fuel (page + 1) _ l' y hl' hy,
          ih (page + 1) _ l' hl'⟩
      · rw [if_neg ha] at h
        exact ih (page + 1) last l h
    · rw [if_neg hg] at h
      cases h
      exact List.chain'_nil

theorem additionalLoop_chain_lt (oldH newH ph calib minSp : ℚ) (hph : 0 < ph) :
    ∀ (fuel : ℕ) (page : ℤ) (last : ℚ) (l : List ℚ),
      additionalLoop oldH newH ph calib minSp fuel page last = some l →
      l.Chain' (· < ·) := by
  intro fuel
  induction fuel with
  | zero => intro page last l h; exact absurd h (by simp [additionalLoop])
  | succ fuel ih =>
    intro page last l h
    rw [additionalLoop_succ] at h
    by_cases hg : (page : ℚ) * ph < newH
    · rw [if_pos hg] at h
      by_cases ha : minSp ≤ (page : ℚ) * ph + calib - last ∧ oldH < (page : ℚ) * ph + calib
      · rw [if_pos ha] at h
        obtain ⟨l', hl', rfl⟩ := Option.map_eq_some'.mp h
        rw [List.chain'_cons']
        refine ⟨fun y hy => ?_, ih (page + 1) _ l' hl'⟩
        have hm : y ∈ l' := List.mem_of_mem_head? hy
        have := additionalLoop_mem_lb oldH newH ph calib minSp hph fuel (page + 1) _ l' hl' y hm
        push_cast at this ⊢
        nlinarith
      · rw [if_neg ha] at h
        exact ih (page + 1) last l h
    · rw [if_neg hg] at h
      cases h
      exact List.chain'_nil

theorem additionalLoop_mem_ub (oldH newH ph calib minSp : ℚ) :
    ∀ (fuel : ℕ) (page : ℤ) (last : ℚ) (l : List ℚ),
      additionalLoop oldH newH ph calib minSp fuel page last = some l →
      ∀ x ∈ l, x < newH + calib := by
  intro fuel
  induction fuel with
  | zero => intro page last l h; exact absurd h (by simp [additionalLoop])
  | succ fuel ih =>
    intro page last l h x hx
    rw [additionalLoop_succ] at h
    by_cases hg : (page : ℚ) * ph < newH
    · rw [if_pos hg] at h
      by_cases ha : minSp ≤ (page : ℚ) * ph + calib - last ∧ oldH < (page : ℚ) * ph + calib
      · rw [if_pos ha] at h
        obtain ⟨l', hl', rfl⟩ := Option.map_eq_some'.mp h
        rcases List.mem_cons.mp hx with rfl | hx'
        · linarith
        · exact ih (page + 1) _ l' hl' x hx'
      · rw [if_neg ha] at h
        exact ih (page + 1) last l h x hx
    · rw [if_neg hg] at h
      cases h
      cases hx

/-! ### Extension equivalence machinery

All statements below are at `calibrationOffset = 0`: the extension loop
re-derives its start page as `⌊lastBreak / pageHeight⌋ + 1`, which only
matches the page of the last accepted break when the offset vanishes. -/

theorem aBreaks_eq_sBreaks_of_rej (oldH newH ph minSp : ℚ) (hph : 0 < ph)
    (hbd : ∀ p : ℤ, (p : ℚ) * ph ≠ oldH) :
    ∀ (n : ℕ) (page : ℤ) (last : ℚ),
      newH ≤ ((page : ℚ) + (n : ℚ)) * ph →
      (∀ p : ℤ, page ≤ p → (p : ℚ) * ph < oldH → (p : ℚ) * ph - last < minSp) →
      aBreaks oldH newH ph 0 minSp page last = sBreaks newH ph 0 minSp page last := by
  intro n
  induction n with
  | zero =>
    intro page last hb _
    have hg : ¬ ((page : ℚ) * ph < newH) := not_lt.mpr (by push_cast at hb; linarith)
    rw [aBreaks_exit oldH newH ph 0 minSp page last hg, sBreaks_exit newH ph 0 minSp page last hg]
  | succ n ih =>
    intro page last hb hrej
    have hb' : newH ≤ (((page + 1 : ℤ) : ℚ) + (n : ℚ)) * ph := by
      push_cast at hb ⊢
      nlinarith
    by_cases hg : (page : ℚ) * ph < newH
    · rcases lt_trichotomy ((page : ℚ) * ph) oldH with hlt | heq | hgt
      · have hsf : (page : ℚ) * ph - last < minSp := hrej page le_rfl hlt
        have haS : ¬ (minSp ≤ (page : ℚ) * ph + 0 - last) := by
          rw [add_zero]
          exact not_le.mpr hsf
        have haA : ¬ (minSp ≤ (page : ℚ) * ph + 0 - last ∧ oldH < (page : ℚ) * ph + 0) :=
          fun hc => haS hc.1
        rw [aBreaks_step_reject oldH newH ph 0 minSp hph page last hg haA,
          sBreaks_step_reject newH ph 0 minSp hph page last hg haS]
        exact ih (page + 1) last hb' (fun p hp hplt => hrej p (by omega) hplt)
      · exact absurd heq (hbd page)
      · have hc : oldH < (page : ℚ) * ph + 0 := by
          rw [add_zero]
          exact hgt
        have hnone : ∀ q : ℚ, ∀ p : ℤ, page + 1 ≤ p → (p : ℚ) * ph < oldH →
            (p : ℚ) * ph - q < minSp := by
          intro q p hp hplt
          exfalso
          have h1 : ((page : ℚ)) < (p : ℚ) := by exact_mod_cast (by omega : page < p)
          nlinarith
        by_cases ha : minSp ≤ (page : ℚ) * ph + 0 - last
        · rw [aBreaks_step_accept oldH newH ph 0 minSp hph page last hg ⟨ha, hc⟩,
            sBreaks_step_accept newH ph 0 minSp hph page last hg ha,
            ih (page + 1) ((page : ℚ) * ph + 0) hb' (hnone _)]
        · rw [aBreaks_step_reject oldH newH ph 0 minSp hph page last hg (fun hcon => ha hcon.1),
            sBreaks_step_reject newH ph 0 minSp hph page last hg ha]
          exact ih (page + 1) last hb' (hnone _)
    · rw [aBreaks_exit oldH newH ph 0 minSp page last hg,
        sBreaks_exit newH ph 0 minSp page last hg]

theorem aBreaks_eq_sBreaks (oldH newH ph minSp : ℚ) (hph : 0 < ph)
    (hbd : ∀ p : ℤ, (p : ℚ) * ph ≠ oldH) (page : ℤ) (last : ℚ)
    (hrej : ∀ p : ℤ, page ≤ p → (p : ℚ) * ph < oldH → (p : ℚ) * ph - last < minSp) :
    aBreaks oldH newH ph 0 minSp page last = sBreaks newH ph 0 minSp page last :=
  aBreaks_eq_sBreaks_of_rej oldH newH ph minSp hph hbd
    ((⌈newH / ph⌉ - page).toNat) page last (sFuel_suff newH ph hph page) hrej

theorem sBreaks_skip (H ph minSp : ℚ) (hph : 0 < ph) :
    ∀ (n : ℕ) (page : ℤ) (last : ℚ),
      (∀ p : ℤ, page ≤ p → p < page + (n : ℤ) → (p : ℚ) * ph - last < minSp) →
      sBreaks H ph 0 minSp page last = sBreaks H ph 0 minSp (page + (n : ℤ)) last := by
  intro n
  induction n with
  | zero => intro page last _; norm_num
  | succ n ih =>
    intro page last hrej
    by_cases hg : (page : ℚ) * ph < H
    · have ha : ¬ (minSp ≤ (page : ℚ) * ph + 0 - last) := by
        rw [add_zero]
        exact not_le.mpr (hrej page le_rfl (by push_cast; omega))
      rw [sBreaks_step_reject H ph 0 minSp hph page last hg ha,
        ih (page + 1) last (fun p hp hplt => hrej p (by omega) (by push_cast at hplt ⊢; omega))]
      congr 1
      push_cast
      ring
    · have hg2 : ¬ (((page + (n + 1 : ℕ) : ℤ) : ℚ) * ph < H) := by
        push_cast
        push_cast at hg
        intro hcon
        have hn : (0 : ℚ) ≤ (n : ℚ) + 1 := by positivity
        nlinarith
      rw [sBreaks_exit H ph 0 minSp page last hg,
        sBreaks_exit H ph 0 minSp _ last hg2]

theorem sBreaks_decomp_exitcase (oldH newH ph minSp : ℚ) (hph : 0 < ph)
    (hbd : ∀ p : ℤ, (p : ℚ) * ph ≠ oldH) (page kp : ℤ) (last : ℚ)
    (hkpage : kp < page)
    (hrej : ∀ p : ℤ, kp < p → p < page → (p : ℚ) * ph - last < minSp)
    (hgO : ¬ ((page : ℚ) * ph < oldH)) :
    sBreaks newH ph 0 minSp page last = aBreaks oldH newH ph 0 minSp (kp + 1) last := by
  have hOnotlt : oldH ≤ (page : ℚ) * ph := not_lt.mp hgO
  have e1 : aBreaks oldH newH ph 0 minSp (kp + 1) last
      = sBreaks newH ph 0 minSp (kp + 1) last := by
    apply aBreaks_eq_sBreaks oldH newH ph minSp hph hbd (kp + 1) last
    intro p hp hplt
    have hppage : p < page := by
      have h1 : (p : ℚ) * ph < (page : ℚ) * ph := lt_of_lt_of_le hplt hOnotlt
      have h2 : (p : ℚ) < (page : ℚ) := lt_of_mul_lt_mul_right h1 hph.le
      exact_mod_cast h2
    exact hrej p (by omega) hppage
  have e2 : sBreaks newH ph 0 minSp (kp + 1) last = sBreaks newH ph 0 minSp page last := by
    have hrej2 : ∀ p : ℤ, kp + 1 ≤ p → p < (kp + 1) + (((page - (kp + 1)).toNat : ℕ) : ℤ) →
        (p : ℚ) * ph - last < minSp := by
      intro p hp hplt
      apply hrej p (by omega)
      omega
    have hn : (kp + 1) + (((page - (kp + 1)).toNat : ℕ) : ℤ) = page := by omega
    rw [sBreaks_skip newH ph minSp hph ((page - (kp + 1)).toNat) (kp + 1) last hrej2, hn]
  rw [e1, e2]

theorem sBreaks_decomp (oldH newH ph minSp : ℚ) (hph : 0 < ph) (hon : oldH ≤ newH)
    (hbd : ∀ p : ℤ, (p : ℚ) * ph ≠ oldH) :
    ∀ (n : ℕ) (page kp : ℤ) (last : ℚ) (old : List ℚ),
      last = (kp : ℚ) * ph → kp < page →
      (∀ p : ℤ, kp < p → p < page → (p : ℚ) * ph - last < minSp) →
      newH ≤ ((page : ℚ) + (n : ℚ)) * ph →
      sBreaks oldH ph 0 minSp page last = some old →
      sBreaks newH ph 0 minSp page last
        = Option.map (fun bs => old ++ bs)
            (aBreaks oldH newH ph 0 minSp
              (⌊(old.getLastD last) / ph⌋ + 1) (old.getLastD last)) := by
  intro n
  induction n with
  | zero =>
    intro page kp last old hkp hkpage hrej hb hOld
    have hgO : ¬ ((page : ℚ) * ph < oldH) := not_lt.mpr (by push_cast at hb; linarith)
    rw [sBreaks_exit oldH ph 0 minSp page last hgO, Option.some_inj] at hOld
    subst hOld
    have hfl : ⌊last / ph⌋ = kp := by
      have hdiv : last / ph = ((kp : ℤ) : ℚ) := by
        rw [hkp]
        field_simp
      rw [hdiv, Int.floor_intCast]
    show sBreaks newH ph 0 minSp page last
      = Option.map (fun bs => [] ++ bs) (aBreaks oldH newH ph 0 minSp (⌊last / ph⌋ + 1) last)
    have hid : (fun bs : List ℚ => [] ++ bs) = id := funext fun bs => List.nil_append bs
    rw [hid, Option.map_id, hfl]
    exact sBreaks_decomp_exitcase oldH newH ph minSp hph hbd page kp last hkpage hrej hgO
  | succ n ih =>
    intro page kp last old hkp hkpage hrej hb hOld
    have hb' : newH ≤ (((page + 1 : ℤ) : ℚ) + (n : ℚ)) * ph := by
      push_cast at hb ⊢
      nlinarith
    by_cases hgO : (page : ℚ) * ph < oldH
    · have hgN : (page : ℚ) * ph < newH := lt_of_lt_of_le hgO hon
      by_cases ha : minSp ≤ (page : ℚ) * ph + 0 - last
      · rw [sBreaks_step_accept oldH ph 0 minSp hph page last hgO ha] at hOld
        obtain ⟨old', hold', rfl⟩ := Option.map_eq_some'.mp hOld
        rw [sBreaks_step_accept newH ph 0 minSp hph page last hgN ha]
        have hkp2 : (page : ℚ) * ph + 0 = ((page : ℤ) : ℚ) * ph := by rw [add_zero]
        have hkpage2 : (page : ℤ) < page + 1 := by omega
        have hrej2 : ∀ p : ℤ, page < p → p < page + 1 →
            (p : ℚ) * ph - ((page : ℚ) * ph + 0) < minSp := by
          intro p hp hplt
          omega
        rw [ih (page + 1) page ((page : ℚ) * ph + 0) old' hkp2 hkpage2 hrej2 hb' hold',
          Option.map_map]
        have hfun : ((fun bs : List ℚ => ((page : ℚ) * ph + 0) :: bs) ∘ fun bs => old' ++ bs)
            = fun bs => (((page : ℚ) * ph + 0) :: old') ++ bs := by
          funext bs
          simp
        rw [hfun]
        have hlst : (List.getLastD (((page : ℚ) * ph + 0) :: old') last)
            = List.getLastD old' ((page : ℚ) * ph + 0) := List.getLastD_cons _ _ _
        rw [hlst]
      · rw [sBreaks_step_reject oldH ph 0 minSp hph page last hgO ha] at hOld
        rw [sBreaks_step_reject newH ph 0 minSp hph page last hgN ha]
        have hrej2 : ∀ p : ℤ, kp < p → p < page + 1 → (p : ℚ) * ph - last < minSp := by
          intro p hp hplt
          by_cases hpp : p < page
          · exact hrej p hp hpp
          · have hpe : p = page := by omega
            subst hpe
            rw [add_zero] at ha
            exact not_le.mp ha
        exact ih (page + 1) kp last old hkp (by omega) hrej2 hb' hOld
    · have hOld' := hOld
      rw [sBreaks_exit oldH ph 0 minSp page last hgO, Option.some_inj] at hOld'
      subst hOld'
      have hfl : ⌊last / ph⌋ = kp := by
        have hdiv : last / ph = ((kp : ℤ) : ℚ) := by
          rw [hkp]
          field_simp
        rw [hdiv, Int.floor_intCast]
      show sBreaks newH ph 0 minSp page last
        = Option.map (fun bs => [] ++ bs) (aBreaks oldH newH ph 0 minSp (⌊last / ph⌋ + 1) last)
      have hid : (fun bs : List ℚ => [] ++ bs) = id := funext fun bs => List.nil_append bs
      rw [hid, Option.map_id, hfl]
      exact sBreaks_decomp_exitcase oldH newH ph minSp hph hbd page kp last hkpage hrej hgO

theorem getLastD_mem_or (l : List ℚ) (d : ℚ) : l.getLastD d = d ∨ l.getLastD d ∈ l := by
  induction l generalizing d with
  | nil => exact Or.inl rfl
  | cons a t ih =>
    rw [List.getLastD_cons]
    rcases ih a with h | h
    · rw [h]
      exact Or.inr (List.mem_cons_self a t)
    · exact Or.inr (List.mem_cons_of_mem a h)


/-! ### Concrete runs of the generator and extender

`decide` cannot evaluate `⌈·⌉`/`⌊·⌋` on `ℚ` inside the kernel, so the
concrete runs used by the claims are evaluated by rewriting one loop
iteration at a time. -/

theorem run_200 : calculateSimpleBreaks 200 100 0 0 = some [100] := by
  rw [calculateSimpleBreaks,
    show breakFuel 200 100 = 3 by rw [breakFuel, show ⌈(200:ℚ)/100⌉ = 2 by norm_num]; rfl,
    show (3:ℕ) = 2 + 1 from rfl, simpleLoop_succ,
    if_pos (by push_cast; norm_num), if_pos (by push_cast; norm_num),
    show (2:ℕ) = 1 + 1 from rfl, simpleLoop_succ,
    if_neg (by push_cast; norm_num)]
  norm_num [Option.map]

theorem run_300 : calculateSimpleBreaks 300 100 0 0 = some [100, 200] := by
  rw [calculateSimpleBreaks,
    show breakFuel 300 100 = 4 by rw [breakFuel, show ⌈(300:ℚ)/100⌉ = 3 by norm_num]; rfl,
    show (4:ℕ) = 3 + 1 from rfl, simpleLoop_succ,
    if_pos (by push_cast; norm_num), if_pos (by push_cast; norm_num),
    show (3:ℕ) = 2 + 1 from rfl, simpleLoop_succ,
    if_pos (by push_cast; norm_num), if_pos (by push_cast; norm_num),
    show (2:ℕ) = 1 + 1 from rfl, simpleLoop_succ,
    if_neg (by push_cast; norm_num)]
  norm_num [Option.map]

theorem run_250 : calculateSimpleBreaks 250 100 0 0 = some [100, 200] := by
  rw [calculateSimpleBreaks,
    show breakFuel 250 100 = 4 by rw [breakFuel, show ⌈(250:ℚ)/100⌉ = 3 by rw [Int.ceil_eq_iff] <;> norm_num]; rfl,
    show (4:ℕ) = 3 + 1 from rfl, simpleLoop_succ,
    if_pos (by push_cast; norm_num), if_pos (by push_cast; norm_num),
    show (3:ℕ) = 2 + 1 from rfl, simpleLoop_succ,
    if_pos (by push_cast; norm_num), if_pos (by push_cast; norm_num),
    show (2:ℕ) = 1 + 1 from rfl, simpleLoop_succ,
    if_neg (by push_cast; norm_num)]
  norm_num [Option.map]

theorem run_ext_100_200_300 : createAdditionalBreaks 100 200 300 100 0 0 = some [] := by
  rw [createAdditionalBreaks,
    show breakFuel 300 100 = 4 by rw [breakFuel, show ⌈(300:ℚ)/100⌉ = 3 by norm_num]; rfl,
    show ⌊(100:ℚ)/100⌋ = 1 by norm_num,
    show (4:ℕ) = 3 + 1 from rfl, additionalLoop_succ,
    if_pos (by push_cast; norm_num), if_neg (by push_cast; norm_num),
    show (3:ℕ) = 2 + 1 from rfl, additionalLoop_succ,
    if_neg (by push_cast; norm_num)]

theorem run_ext_200_250_430 : createAdditionalBreaks 200 250 430 100 0 0 = some [300, 400] := by
  rw [createAdditionalBreaks,
    show breakFuel 430 100 = 6 by rw [breakFuel, show ⌈(430:ℚ)/100⌉ = 5 by rw [Int.ceil_eq_iff] <;> norm_num]; rfl,
    show ⌊(200:ℚ)/100⌋ = 2 by norm_num,
    show (6:ℕ) = 5 + 1 from rfl, additionalLoop_succ,
    if_pos (by push_cast; norm_num), if_pos (by push_cast; norm_num),
    show (5:ℕ) = 4 + 1 from rfl, additionalLoop_succ,
    if_pos (by push_cast; norm_num), if_pos (by push_cast; norm_num),
    show (4:ℕ) = 3 + 1 from rfl, additionalLoop_succ,
    if_neg (by push_cast; norm_num)]
  norm_num [Option.map]

theorem run_3000 : calculateSimpleBreaks 3000 900 0 1000 = some [1800] := by
  rw [calculateSimpleBreaks,
    show breakFuel 3000 900 = 5 by rw [breakFuel, show ⌈(3000:ℚ)/900⌉ = 4 by rw [Int.ceil_eq_iff] <;> norm_num]; rfl,
    show (5:ℕ) = 4 + 1 from rfl, simpleLoop_succ,
    if_pos (by push_cast; norm_num), if_neg (by push_cast; norm_num),
    show (4:ℕ) = 3 + 1 from rfl, simpleLoop_succ,
    if_pos (by push_cast; norm_num), if_pos (by push_cast; norm_num),
    show (3:ℕ) = 2 + 1 from rfl, simpleLoop_succ,
    if_pos (by push_cast; norm_num), if_neg (by push_cast; norm_num),
    show (2:ℕ) = 1 + 1 from rfl, simpleLoop_succ,
    if_neg (by push_cast; norm_num)]
  norm_num [Option.map]

theorem run_150 : calculateSimpleBreaks 150 100 1000 0 = some [1100] := by
  rw [calculateSimpleBreaks,
    show breakFuel 150 100 = 3 by rw [breakFuel, show ⌈(150:ℚ)/100⌉ = 2 by rw [Int.ceil_eq_iff] <;> norm_num]; rfl,
    show (3:ℕ) = 2 + 1 from rfl, simpleLoop_succ,
    if_pos (by push_cast; norm_num), if_pos (by push_cast; norm_num),
    show (2:ℕ) = 1 + 1 from rfl, simpleLoop_succ,
    if_neg (by push_cast; norm_num)]
  norm_num [Option.map]

theorem run_2000 : calculateSimpleBreaks 2000 900 0 50 = some [900, 1800] := by
  rw [calculateSimpleBreaks,
    show breakFuel 2000 900 = 4 by rw [breakFuel, show ⌈(2000:ℚ)/900⌉ = 3 by rw [Int.ceil_eq_iff] <;> norm_num]; rfl,
    show (4:ℕ) = 3 + 1 from rfl, simpleLoop_succ,
    if_pos (by push_cast; norm_num), if_pos (by push_cast; norm_num),
    show (3:ℕ) = 2 + 1 from rfl, simpleLoop_succ,
    if_pos (by push_cast; norm_num), if_pos (by push_cast; norm_num),
    show (2:ℕ) = 1 + 1 from rfl, simpleLoop_succ,
    if_neg (by push_cast; norm_num)]
  norm_num [Option.map]

/-! ### Claim theorems -/

/-- C1. The claim as stated is false on the code (see `c1_counterexample`):
the extension loop demands `breakY > oldHeight`, so a candidate falling
exactly on `oldHeight` is dropped by the extender although the full generator
accepts it, and a nonzero calibration offset shifts the extender's restart
page.  Amended: for every pageHeight > 0, minSpacing >= 0, oldHeight <
newHeight, with calibrationOffset = 0 and no page boundary exactly equal to
oldHeight, the full run on newHeight is the run on oldHeight followed by the
additional breaks of the extender invoked, as the code does, with the last
existing break (0 when none). -/
theorem c1_extension_equiv_amended (oldH newH ph minSp : ℚ) (old ext : List ℚ)
    (hph : 0 < ph) (hsp : 0 ≤ minSp) (holt : oldH < newH)
    (hbd : ∀ p : ℤ, (p : ℚ) * ph ≠ oldH)
    (hold : calculateSimpleBreaks oldH ph 0 minSp = some old)
    (hext : createAdditionalBreaks (old.getLastD 0) oldH newH ph 0 minSp = some ext) :
    calculateSimpleBreaks newH ph 0 minSp = some (old ++ ext) := by
  rw [calculateSimpleBreaks_eq_sBreaks oldH ph 0 minSp hph] at hold
  have hmem : ∀ x ∈ old, 0 ≤ x := by
    intro x hx
    have hlb := simpleLoop_mem_lb oldH ph 0 minSp hph _ 1 0 old hold x hx
    push_cast at hlb
    linarith
  have hlb0 : 0 ≤ old.getLastD 0 := by
    rcases getLastD_mem_or old 0 with h | h
    · rw [h]
    · exact hmem _ h
  have hkp : (0 : ℚ) = ((0 : ℤ) : ℚ) * ph := by push_cast; ring
  have hrej : ∀ p : ℤ, (0 : ℤ) < p → p < 1 → (p : ℚ) * ph - 0 < minSp := by
    intro p hp hplt
    omega
  have hb : newH ≤ (((1 : ℤ) : ℚ) + (((⌈newH / ph⌉ - 1).toNat : ℕ) : ℚ)) * ph := by
    exact_mod_cast sFuel_suff newH ph hph 1
  have hdec := sBreaks_decomp oldH newH ph minSp hph holt.le hbd
    ((⌈newH / ph⌉ - 1).toNat) 1 0 0 old hkp (by omega) hrej hb hold
  rw [createAdditionalBreaks_eq_aBreaks (old.getLastD 0) oldH newH ph 0 minSp hph hlb0] at hext
  rw [calculateSimpleBreaks_eq_sBreaks newH ph 0 minSp hph, hdec, hext]
  rfl

/-- C1: concrete counterexample to the claim as stated.  With
pageHeight 100, calibrationOffset 0, minSpacing 0, oldHeight 200,
newHeight 300: the full generator on 200 yields [100], the extender
(invoked as the code does, with last existing break 100) yields nothing
because candidate 200 is not strictly above oldHeight, but the full
generator on 300 yields [100, 200]. -/
theorem c1_counterexample :
    calculateSimpleBreaks 200 100 0 0 = some [100] ∧
    createAdditionalBreaks 100 200 300 100 0 0 = some [] ∧
    calculateSimpleBreaks 300 100 0 0 = some [100, 200] ∧
    ([(100 : ℚ)] ++ ([] : List ℚ)) ≠ [100, 200] := by
  refine ⟨run_200, run_ext_100_200_300, run_300, by decide⟩

/-- C1: witness for the amended equivalence at pageHeight 100,
minSpacing 0, oldHeight 250, newHeight 430. -/
theorem c1_extension_equiv_amended_witness :
    calculateSimpleBreaks 430 100 0 0 = some ([100, 200] ++ [300, 400]) :=
  c1_extension_equiv_amended 250 430 100 0 [100, 200] [300, 400]
    (by norm_num) le_rfl (by norm_num)
    (by
      intro p hp
      have h2 : ((2 * p : ℤ) : ℚ) = 5 := by push_cast; linarith
      have h3 : (2 * p : ℤ) = 5 := by exact_mod_cast h2
      omega)
    run_250 run_ext_200_250_430

/-- C2. The claim as stated is false on the code: every request that goes
through `updateAllViews` first clears the whole cache (src/main.js line 204,
"ALWAYS clear caches"), so a second consecutive `updateAllViews` with no
intervening invalidating event performs a second full computation.  The
returned sequences are still identical (the computation is deterministic).
This closed run shows the computation counter advancing from 1 to 2 while
the cached sequence is unchanged. -/
theorem c2_counterexample :
    (updateAllViews 900 0 50 ⟨[], 0⟩ [(0, 2000)]).computations = 1 ∧
    (updateAllViews 900 0 50 (updateAllViews 900 0 50 ⟨[], 0⟩ [(0, 2000)]) [(0, 2000)]).computations
      = 2 ∧
    (updateAllViews 900 0 50 (updateAllViews 900 0 50 ⟨[], 0⟩ [(0, 2000)]) [(0, 2000)]).calculatedBreaks
      = (updateAllViews 900 0 50 ⟨[], 0⟩ [(0, 2000)]).calculatedBreaks := by
  refine ⟨?_, ?_, ?_⟩ <;>
    simp [updateAllViews, updatePageBreaks, run_2000, List.lookup]

/-- C2 (amended): the per-container request `updatePageBreaks` does serve the
cache as a no-op: running it twice with no intervening invalidation is the
same state as running it once (same sequences, no extra computation); only
requests routed through `updateAllViews` recompute, because that entry point
clears the cache unconditionally. -/
theorem c2_cache_noop_amended (ph calib minSp : ℚ) (s : SyncState)
    (container : ℕ) (height : ℚ) :
    updatePageBreaks ph calib minSp
        (updatePageBreaks ph calib minSp s container height) container height
      = updatePageBreaks ph calib minSp s container height := by
  unfold updatePageBreaks
  by_cases h : (s.calculatedBreaks.lookup container).isSome
  · rw [if_pos h, if_pos h]
  · rw [if_neg h]
    rw [if_pos (by simp [List.lookup])]

/-- C3. The claim as stated is false on the code: with pageHeight 900 and
minSpacing 1000 the very first candidate 900 is itself rejected against the
top edge (900 - 0 < 1000), so the sequence does not start at 900; at
totalHeight 3000 > 2700 the computed sequence is [1800], which does not
contain 2700 either. -/
theorem c3_counterexample :
    calculateSimpleBreaks 3000 900 0 1000 = some [1800] ∧
    ([(1800 : ℚ)].head? ≠ some 900) ∧
    ((2700 : ℚ) ∉ [(1800 : ℚ)]) ∧ ((1800 : ℚ) ∈ [(1800 : ℚ)]) := by
  refine ⟨run_3000, by decide, by decide, by decide⟩

/-- C3 (amended): with pageHeight 900, minSpacing 1000, calibrationOffset 0
and any totalHeight > 2700, candidate 900 is rejected against the top edge,
1800 is accepted first, 2700 is rejected (2700 - 1800 = 900 < 1000), and
every later break lies strictly above 2700; in particular neither 900 nor
2700 ever appears. -/
theorem c3_scenario_amended (H : ℚ) (hH : 2700 < H) :
    ∃ rest : List ℚ, calculateSimpleBreaks H 900 0 1000 = some (1800 :: rest) ∧
      (∀ x ∈ rest, 2700 < x) ∧
      (900 : ℚ) ∉ 1800 :: rest ∧ (2700 : ℚ) ∉ 1800 :: rest := by
  have hph : (0 : ℚ) < 900 := by norm_num
  have h1 : sBreaks H 900 0 1000 1 0 = sBreaks H 900 0 1000 (1 + 1) 0 :=
    sBreaks_step_reject H 900 0 1000 hph 1 0 (by push_cast; linarith)
      (by push_cast; norm_num)
  have h2 : sBreaks H 900 0 1000 (1 + 1) 0
      = Option.map (fun bs => (((1 + 1 : ℤ) : ℚ) * 900 + 0) :: bs)
          (sBreaks H 900 0 1000 (1 + 1 + 1) (((1 + 1 : ℤ) : ℚ) * 900 + 0)) :=
    sBreaks_step_accept H 900 0 1000 hph (1 + 1) 0 (by push_cast; linarith)
      (by push_cast; norm_num)
  have h3 : sBreaks H 900 0 1000 (1 + 1 + 1) (((1 + 1 : ℤ) : ℚ) * 900 + 0)
      = sBreaks H 900 0 1000 (1 + 1 + 1 + 1) (((1 + 1 : ℤ) : ℚ) * 900 + 0) :=
    sBreaks_step_reject H 900 0 1000 hph (1 + 1 + 1) _ (by push_cast; linarith)
      (by push_cast; norm_num)
  obtain ⟨rest, hrest⟩ := sBreaks_isSome H 900 0 1000 hph (1 + 1 + 1 + 1)
    (((1 + 1 : ℤ) : ℚ) * 900 + 0)
  have hmem : ∀ x ∈ rest, 2700 < x := by
    intro x hx
    have := simpleLoop_mem_lb H 900 0 1000 hph _ (1 + 1 + 1 + 1) _ rest hrest x hx
    push_cast at this
    linarith
  refine ⟨rest, ?_, hmem, ?_, ?_⟩
  · rw [calculateSimpleBreaks_eq_sBreaks H 900 0 1000 hph, h1, h2, h3, hrest]
    push_cast
    norm_num
  · intro hmem9
    rcases List.mem_cons.mp hmem9 with h | h
    · norm_num at h
    · have := hmem _ h
      linarith
  · intro hmem27
    rcases List.mem_cons.mp hmem27 with h | h
    · norm_num at h
    · have := hmem _ h
      linarith

/-- C3: witness for the amended scenario at totalHeight 3000. -/
theorem c3_scenario_amended_witness :
    ∃ rest : List ℚ, calculateSimpleBreaks 3000 900 0 1000 = some (1800 :: rest) ∧
      (∀ x ∈ rest, 2700 < x) ∧
      (900 : ℚ) ∉ 1800 :: rest ∧ (2700 : ℚ) ∉ 1800 :: rest :=
  c3_scenario_amended 3000 (by norm_num)

theorem simpleLoop_none_of_nonpos (H ph calib minSp : ℚ) (hph : ph ≤ 0) (hH : 0 < H) :
    ∀ (fuel : ℕ) (page : ℤ), 1 ≤ page → ∀ last : ℚ,
      simpleLoop H ph calib minSp fuel page last = none := by
  intro fuel
  induction fuel with
  | zero => intro page _ last; rfl
  | succ fuel ih =>
    intro page hpage last
    have hg : (page : ℚ) * ph < H := by
      have hp : (1 : ℚ) ≤ (page : ℚ) := by exact_mod_cast hpage
      nlinarith
    rw [simpleLoop_succ, if_pos hg]
    by_cases ha : minSp ≤ (page : ℚ) * ph + calib - last
    · rw [if_pos ha, ih (page + 1) (by omega) _]
      rfl
    · rw [if_neg ha]
      exact ih (page + 1) (by omega) last

/-- A configuration whose margins (150 mm top and bottom) exceed the A4 page
height of 297 mm, with the default remaining settings. -/
def badMarginSettings : Settings :=
  ⟨PageSize.A4, PageOrientation.portrait, 150, 150, FontFamily.default, 0, 50⟩

/-- C4.  The spec is right and the code is wrong: when the margins consume
the page dimension, `getPageHeight` returns a non-positive pixel height and
nothing in the code guards against it; the `while` loop of
`calculateSimpleBreaks` then never terminates on any container of positive
height (its guard `currentPage * pageHeight < totalHeight` stays true
forever), instead of skipping the computation.  Formally: the page height of
`badMarginSettings` is non-positive and the loop returns `none` at every
fuel — the fuel-indexed embedding of divergence. -/
theorem c4_nonpositive_page_height_diverges :
    getPageHeight badMarginSettings ≤ 0 ∧
    (∀ fuel : ℕ, simpleLoop 1000 (getPageHeight badMarginSettings)
        badMarginSettings.calibrationOffset badMarginSettings.minBreakSpacing fuel 1 0 = none) ∧
    calculateSimpleBreaks 1000 (getPageHeight badMarginSettings)
        badMarginSettings.calibrationOffset badMarginSettings.minBreakSpacing = none := by
  have hv : getPageHeight badMarginSettings ≤ 0 := by
    norm_num [badMarginSettings, getPageHeight, PAGE_DIMENSIONS, FONT_METRICS]
  refine ⟨hv, ?_, ?_⟩
  · intro fuel
    exact simpleLoop_none_of_nonpos 1000 _ _ _ hv (by norm_num) fuel 1 le_rfl 0
  · exact simpleLoop_none_of_nonpos 1000 _ _ _ hv (by norm_num) _ 1 le_rfl 0

/-- C5: concrete counterexample to the claim as stated.  With totalHeight
150, pageHeight 100, calibrationOffset 1000, minSpacing 0 the generator
returns [1100], and 1100 exceeds the container height 150: positive
calibration offsets push accepted breaks beyond the rendered height. -/
theorem c5_counterexample :
    calculateSimpleBreaks 150 100 1000 0 = some [1100] ∧ ¬ ((1100 : ℚ) ≤ 150) :=
  ⟨run_150, by norm_num⟩

/-- C5 (amended): every offset produced by the generator is strictly below
totalHeight + calibrationOffset (and every offset produced by the extender is
strictly below newHeight + calibrationOffset); in particular for
calibrationOffset ≤ 0 offsets never exceed the container height. -/
theorem c5_offset_bound_amended (H ph calib minSp lastBreak oldH newH : ℚ)
    (hph : 0 < ph) (hsp : 0 ≤ minSp) :
    (∀ l, calculateSimpleBreaks H ph calib minSp = some l → ∀ x ∈ l, x < H + calib) ∧
    (∀ l, createAdditionalBreaks lastBreak oldH newH ph calib minSp = some l →
      ∀ x ∈ l, x < newH + calib) := by
  constructor
  · intro l hl x hx
    rw [calculateSimpleBreaks] at hl
    exact simpleLoop_mem_ub H ph calib minSp _ 1 0 l hl x hx
  · intro l hl x hx
    rw [createAdditionalBreaks] at hl
    exact additionalLoop_mem_ub oldH newH ph calib minSp _ _ _ l hl x hx

/-- C5: witness for the amended bound on the run with totalHeight 2000,
pageHeight 900, calibrationOffset 0, minSpacing 50, whose first break is
900 < 2000 + 0. -/
theorem c5_offset_bound_amended_witness : (900 : ℚ) < 2000 + 0 :=
  (c5_offset_bound_amended 2000 900 0 50 0 0 0 (by norm_num) (by norm_num)).1
    [900, 1800] run_2000 900 (by simp)

/-- The configuration of concrete scenario 1 of the specification. -/
def defaultA4Settings : Settings :=
  ⟨PageSize.A4, PageOrientation.portrait, 25.4, 25.4, FontFamily.default, 0, 50⟩

/-- C6: counterexample to the claim as stated.  The geometry resolver on the
scenario-1 configuration returns (297 - 50.8) * 96/25.4 * 1.0 * 0.985 =
2910084/3175 ≈ 916.56 px, which is NOT within ±1 px of the spec's
≈ 914.7 px — the spec's own formula evaluates to ≈ 916.56, its quoted
numeral 914.7 is an arithmetic slip. -/
theorem c6_counterexample :
    ¬ (|getPageHeight defaultA4Settings - 914.7| ≤ 1) := by
  have hv : getPageHeight defaultA4Settings = 2910084 / 3175 := by
    norm_num [defaultA4Settings, getPageHeight, PAGE_DIMENSIONS, FONT_METRICS]
  rw [hv, abs_le]
  intro hcon
  have h2 := hcon.2
  norm_num at h2

/-- C6 (amended): the geometry resolver on the scenario-1 configuration
returns exactly (297 - 50.8) * 96/25.4 * 1.0 * 0.985, which is ≈ 916.56 px
(within ±1 px of 916.6), not ≈ 914.7 px. -/
theorem c6_page_height_amended :
    getPageHeight defaultA4Settings = (297 - 50.8) * (96 / 25.4) * 1.0 * 0.985 ∧
    |getPageHeight defaultA4Settings - 916.6| ≤ 1 := by
  have hv : getPageHeight defaultA4Settings = 2910084 / 3175 := by
    norm_num [defaultA4Settings, getPageHeight, PAGE_DIMENSIONS, FONT_METRICS]
  constructor
  · rw [hv]
    norm_num
  · rw [hv, abs_le]
    constructor <;> norm_num

/-- C7 (confirmed): for pageHeight > 0 and minSpacing ≥ 0, every sequence the
generator returns — and every sequence the extender returns — is strictly
increasing, and consecutive offsets are at least minSpacing apart.  (The
strict increase holds because accepted candidates sit on strictly increasing
page multiples; the spacing holds by the acceptance test.) -/
theorem c7_strictly_increasing_min_spacing (H ph calib minSp lastBreak oldH newH : ℚ)
    (hph : 0 < ph) (hsp : 0 ≤ minSp) :
    (∀ l, calculateSimpleBreaks H ph calib minSp = some l →
      l.Chain' (· < ·) ∧ l.Chain' (fun a b => minSp ≤ b - a)) ∧
    (∀ l, createAdditionalBreaks lastBreak oldH newH ph calib minSp = some l →
      l.Chain' (· < ·) ∧ l.Chain' (fun a b => minSp ≤ b - a)) := by
  constructor
  · intro l hl
    rw [calculateSimpleBreaks] at hl
    exact ⟨simpleLoop_chain_lt H ph calib minSp hph _ 1 0 l hl,
      simpleLoop_chain_gap H ph calib minSp _ 1 0 l hl⟩
  · intro l hl
    rw [createAdditionalBreaks] at hl
    exact ⟨additionalLoop_chain_lt oldH newH ph calib minSp hph _ _ _ l hl,
      additionalLoop_chain_gap oldH newH ph calib minSp _ _ _ l hl⟩

/-- C7: witness on the run with totalHeight 2000, pageHeight 900,
calibrationOffset 0, minSpacing 50. -/
theorem c7_strictly_increasing_min_spacing_witness :
    ([(900 : ℚ), 1800]).Chain' (· < ·) ∧
    ([(900 : ℚ), 1800]).Chain' (fun a b => (50 : ℚ) ≤ b - a) :=
  (c7_strictly_increasing_min_spacing 2000 900 0 50 0 0 0
    (by norm_num) (by norm_num)).1 [900, 1800] run_2000

/-- C8 (confirmed): whenever totalHeight ≤ pageHeight the generator returns
the empty sequence — the loop guard `1 * pageHeight < totalHeight` fails on
the very first iteration, for every calibration offset and spacing. -/
theorem c8_single_page_empty (H ph calib minSp : ℚ) (hph : 0 < ph) (hle : H ≤ ph) :
    calculateSimpleBreaks H ph calib minSp = some [] := by
  rw [calculateSimpleBreaks, breakFuel, simpleLoop_succ,
    if_neg (by push_cast; linarith)]

/-- C8: witness at totalHeight 500, pageHeight 900. -/
theorem c8_single_page_empty_witness :
    calculateSimpleBreaks 500 900 (-3) 7 = some [] :=
  c8_single_page_empty 500 900 (-3) 7 (by norm_num) (by norm_num)

/-- C10 (confirmed): the generator initialises the last accepted position to
0, so the spacing rule is also enforced against the container's top edge:
for pageHeight > 0 every produced offset is at least minSpacing (the first
by the acceptance test against 0, the rest because the sequence increases). -/
theorem c10_top_edge_spacing (H ph calib minSp : ℚ) (hph : 0 < ph) :
    ∀ l, calculateSimpleBreaks H ph calib minSp = some l → ∀ x ∈ l, minSp ≤ x := by
  intro l hl x hx
  rw [calculateSimpleBreaks] at hl
  cases l with
  | nil => cases hx
  | cons a t =>
    have hhead : minSp ≤ a - 0 :=
      simpleLoop_head_gap H ph calib minSp _ 1 0 (a :: t) a hl rfl
    rcases List.mem_cons.mp hx with rfl | hxt
    · linarith
    · have hchain := simpleLoop_chain_lt H ph calib minSp hph _ 1 0 (a :: t) hl
      have hpw : (a :: t).Pairwise (· < ·) := List.chain'_iff_pairwise.mp hchain
      have hax : a < x := (List.pairwise_cons.mp hpw).1 x hxt
      linarith

/-- C10: witness on the run with totalHeight 2000, pageHeight 900,
minSpacing 50: the first offset 900 is at least 50. -/
theorem c10_top_edge_spacing_witness : (50 : ℚ) ≤ 900 :=
  c10_top_edge_spacing 2000 900 0 50 (by norm_num) [900, 1800] run_2000 900 (by simp)

/-- Positional numbering: marker `(b, n)`, then `(·, n + 1)`, and so on.
Both renderers are instances of this scheme. -/
def numberFrom (n : ℕ) : List ℚ → List (ℚ × ℕ)
  | [] => []
  | b :: bs => createBreakIndicator b n :: numberFrom (n + 1) bs

theorem render_enumFrom_add2 :
    ∀ (l : List ℚ) (k : ℕ),
      (List.enumFrom k l).map (fun ib => createBreakIndicator ib.2 (ib.1 + 2))
        = numberFrom (k + 2) l := by
  intro l
  induction l with
  | nil => intro k; rfl
  | cons a t ih =>
    intro k
    show (a, k + 2) :: (List.enumFrom (k + 1) t).map
        (fun ib => createBreakIndicator ib.2 (ib.1 + 2))
      = (a, k + 2) :: numberFrom (k + 2 + 1) t
    rw [ih (k + 1)]

theorem render_enumFrom_start :
    ∀ (l : List ℚ) (k start : ℕ),
      (List.enumFrom k l).map (fun ib => createBreakIndicator ib.2 (start + ib.1))
        = numberFrom (start + k) l := by
  intro l
  induction l with
  | nil => intro k start; rfl
  | cons a t ih =>
    intro k start
    show (a, start + k) :: (List.enumFrom (k + 1) t).map
        (fun ib => createBreakIndicator ib.2 (start + ib.1))
      = (a, start + k) :: numberFrom (start + k + 1) t
    rw [ih (k + 1) start]
    have heq : start + (k + 1) = start + k + 1 := by omega
    rw [heq]

theorem renderPageBreaks_eq_numberFrom (breaks : List ℚ) :
    renderPageBreaks breaks = numberFrom 2 breaks :=
  render_enumFrom_add2 breaks 0

theorem renderAdditionalBreaks_eq_numberFrom (breaks : List ℚ) (start : ℕ) :
    renderAdditionalBreaks breaks start = numberFrom start breaks := by
  have h := render_enumFrom_start breaks 0 start
  rw [Nat.add_zero] at h
  exact h

theorem numberFrom_getElem :
    ∀ (l : List ℚ) (n i : ℕ) (b : ℚ), l[i]? = some b →
      (numberFrom n l)[i]? = some (b, n + i) := by
  intro l
  induction l with
  | nil => intro n i b h; simp at h
  | cons a t ih =>
    intro n i b h
    rw [show numberFrom n (a :: t) = (a, n) :: numberFrom (n + 1) t from rfl]
    cases i with
    | zero =>
      rw [List.getElem?_cons_zero, Option.some_inj] at h
      subst h
      rw [List.getElem?_cons_zero]
      rfl
    | succ i =>
      rw [List.getElem?_cons_succ] at h
      rw [List.getElem?_cons_succ, ih (n + 1) i b h]
      have heq : n + 1 + i = n + (i + 1) := by omega
      rw [heq]

theorem numberFrom_append :
    ∀ (l₁ l₂ : List ℚ) (n : ℕ),
      numberFrom n (l₁ ++ l₂) = numberFrom n l₁ ++ numberFrom (n + l₁.length) l₂ := by
  intro l₁
  induction l₁ with
  | nil => intro l₂ n; simp [numberFrom]
  | cons a t ih =>
    intro l₂ n
    show (a, n) :: numberFrom (n + 1) (t ++ l₂)
      = (a, n) :: (numberFrom (n + 1) t ++ numberFrom (n + (a :: t).length) l₂)
    rw [ih l₂ (n + 1)]
    have : n + 1 + t.length = n + (a :: t).length := by simp; omega
    rw [this]

/-- C9 (confirmed): page numbers are purely positional.  The break at index
`i` (0-based) of `renderPageBreaks` carries page number `i + 2`, i.e. the
Nth offset (1-indexed) carries N + 1; and rendering extension breaks with
starting number `existing.length + 2` — exactly what
`extendContainersIfNeeded` passes — continues that rule over the combined
sequence. -/
theorem c9_page_numbers_positional (breaks extra : List ℚ) :
    (∀ (i : ℕ) (b : ℚ), breaks[i]? = some b →
      (renderPageBreaks breaks)[i]? = some (b, i + 2)) ∧
    renderPageBreaks (breaks ++ extra)
      = renderPageBreaks breaks ++ renderAdditionalBreaks extra (breaks.length + 2) := by
  constructor
  · intro i b hib
    rw [renderPageBreaks_eq_numberFrom, numberFrom_getElem breaks 2 i b hib,
      Nat.add_comm 2 i]
  · rw [renderPageBreaks_eq_numberFrom, renderPageBreaks_eq_numberFrom,
      renderAdditionalBreaks_eq_numberFrom, numberFrom_append,
      Nat.add_comm 2 breaks.length]

/-- C9: witness on the concrete breaks [100, 300] extended by [500]: the
first marker is numbered 2 and the appended marker continues at 4. -/
theorem c9_page_numbers_positional_witness :
    (renderPageBreaks [100, 300])[0]? = some (100, 0 + 2) ∧
    renderPageBreaks ([(100 : ℚ), 300] ++ [500])
      = renderPageBreaks [100, 300]
          ++ renderAdditionalBreaks [500] ([(100 : ℚ), 300].length + 2) :=
  ⟨(c9_page_numbers_positional [100, 300] [500]).1 0 100 rfl,
   (c9_page_numbers_positional [100, 300] [500]).2⟩
